import Mathlib

/-!
A Lean model of the weighted fair-share admission queue implemented in
`crates/phala-fair-queue/src/lib.rs`.

The asynchronous layer (the tokio mutex, the oneshot channels and the guard
drop) is factored out: the model captures the state kept in `FairQueueInner`
and the lock-protected operations `acquire`, `release` (with its
`try_pickup_next`) and `dispatch`.  A trace of the system is a sequence of
such atomic operations; a `release` step is enabled exactly when an issued
guard is outstanding, i.e. when `serving` is at least one.

The `HashMap<FlowId, Flow>` flow table is embedded as an association list.
The `rbtree::RBTree<VirtualTime, Request>` backlog is embedded as a list
sorted by key with the crate's insertion behaviour: an inserted node whose
key equals an existing key goes to the right of it, so duplicate keys are
kept.  `pop_first` is the head of the list, `get_last`/`pop_last` the last
element.  `get_last` on the empty tree is `none`, which the source turns
into a panic via `expect`; the model returns `none` for a panicking call.

`VirtualTime` (`u128` in the source) is embedded as `Nat`: the stored
quantities are accumulated microseconds, far below `2 ^ 128` for any process
lifetime, and no claim concerns wrap-around.  `serving`/`depth` (`u32`) are
`Nat` as well; the `serving -= 1` in `release` is guarded by the enabling
condition of the step.
-/

namespace FairQueue

abbrev VirtualTime := Nat

abbrev FlowId := Nat

structure Flow where
  previous_finish_tag : VirtualTime
  cost_avg : VirtualTime
deriving DecidableEq, Repr

structure Request where
  flow_id : FlowId
  start_tag : VirtualTime
deriving DecidableEq, Repr

inductive AcquireResult where
  | dispatched
  | queued
  | overloaded
deriving DecidableEq, Repr

structure SchedState where
  flows : List (FlowId × Flow)
  backlog : List (VirtualTime × Request)
  backlog_cap : Nat
  depth : Nat
  serving : Nat
  virtual_time : VirtualTime
deriving DecidableEq, Repr

/-- The state made by `FairQueueInner::new`. -/
def SchedState.init (cap d : Nat) : SchedState :=
  { flows := [], backlog := [], backlog_cap := cap, depth := d,
    serving := 0, virtual_time := 0 }

/-- Association-list embedding of `HashMap::get`. -/
def lookupFlow : List (FlowId × Flow) → FlowId → Option Flow
  | [], _ => none
  | (k, v) :: rest, fid => if k = fid then some v else lookupFlow rest fid

/-- Association-list embedding of `HashMap` insertion/update for one key. -/
def setFlow : List (FlowId × Flow) → FlowId → Flow → List (FlowId × Flow)
  | [], fid, f => [(fid, f)]
  | (k, v) :: rest, fid, f =>
      if k = fid then (fid, f) :: rest else (k, v) :: setFlow rest fid f

/-- Embedding of `rbtree::RBTree::insert` on the sorted-list embedding: a node whose key
equals an existing key is placed to its right (the crate sends `Equal` the
same way as `Greater`), so duplicate keys are retained. -/
def insertBacklog (k : VirtualTime) (r : Request) :
    List (VirtualTime × Request) → List (VirtualTime × Request)
  | [] => [(k, r)]
  | (k', r') :: rest =>
      if k < k' then (k, r) :: (k', r') :: rest
      else (k', r') :: insertBacklog k r rest

/-- The flow entry read by `acquire` (line 119): the stored entry, or the
`Flow::default()` that `or_insert` creates. -/
def flowOf (s : SchedState) (fid : FlowId) : Flow :=
  (lookupFlow s.flows fid).getD ⟨0, 0⟩

/-- Line 121: `start_tag = virtual_time.max(flow.previous_finish_tag)`. -/
def startTagOf (s : SchedState) (fid : FlowId) : VirtualTime :=
  max s.virtual_time (flowOf s fid).previous_finish_tag

/-- Lines 122-123: `cost = cost_avg / weight; finish_tag = start_tag + cost.max(1)`. -/
def finishTagOf (s : SchedState) (fid : FlowId) (weight : Nat) : VirtualTime :=
  startTagOf s fid + max ((flowOf s fid).cost_avg / weight) 1

/-- Embedding of `FairQueueInner::dispatch` (lines 171-188): bump `serving`, advance the
virtual clock to the dispatched request's start tag, hand out the guard. -/
def dispatch (s : SchedState) (r : Request) : SchedState :=
  { s with serving := s.serving + 1, virtual_time := r.start_tag }

/-- Lines 148-152 of `acquire`: dispatch now if a slot is free, otherwise
insert the request into the backlog at its start tag. -/
def serveOrEnqueue (s : SchedState) (fid : FlowId) (start_tag : VirtualTime) :
    AcquireResult × SchedState :=
  if s.serving < s.depth then
    (AcquireResult.dispatched, dispatch s ⟨fid, start_tag⟩)
  else
    (AcquireResult.queued,
      { s with backlog := insertBacklog start_tag ⟨fid, start_tag⟩ s.backlog })

/-- Lines 126-154 of `acquire`, after the tag bookkeeping: when the backlog
is at capacity, look at its maximum-key entry (`get_last`, a panic — modelled
as `none` — if the backlog is empty), reject with `Overloaded` when the new
start tag is not strictly smaller, otherwise evict that entry (`pop_last`)
and admit the new request. -/
def overloadCheck (s : SchedState) (fid : FlowId) (start_tag : VirtualTime) :
    Option (AcquireResult × SchedState) :=
  if s.backlog_cap ≤ s.backlog.length then
    match s.backlog.getLast? with
    | none => none
    | some m =>
        if m.1 ≤ start_tag then some (AcquireResult.overloaded, s)
        else some (serveOrEnqueue { s with backlog := s.backlog.dropLast } fid start_tag)
  else some (serveOrEnqueue s fid start_tag)

/-- Embedding of `FairQueueInner::acquire` (lines 114-155): create/update the flow entry,
writing `finish_tag` into `previous_finish_tag` unconditionally, then run the
overload check and admission with the computed `start_tag`. -/
def acquire (fid : FlowId) (weight : Nat) (s : SchedState) :
    Option (AcquireResult × SchedState) :=
  overloadCheck
    { s with
      flows := setFlow s.flows fid ⟨finishTagOf s fid weight, (flowOf s fid).cost_avg⟩ }
    fid (startTagOf s fid)

/-- Embedding of `FairQueueInner::try_pickup_next` (lines 165-169): pop the minimum-key
backlog entry, if any, and dispatch it. -/
def tryPickupNext (s : SchedState) : SchedState :=
  match s.backlog with
  | [] => s
  | (_, r) :: rest => dispatch { s with backlog := rest } r

/-- Embedding of `FairQueueInner::release` (lines 157-163): fold the actual cost into the
flow's smoothed estimate when the entry still exists, decrement `serving`,
then pick up the next backlog entry. -/
def release (fid : FlowId) (actual_cost : VirtualTime) (s : SchedState) : SchedState :=
  tryPickupNext
    { s with
      flows :=
        match lookupFlow s.flows fid with
        | some f =>
            setFlow s.flows fid ⟨f.previous_finish_tag, (f.cost_avg * 4 + actual_cost) / 5⟩
        | none => s.flows,
      serving := s.serving - 1 }

/-- One atomic lock-protected operation of the queue.  An `acquire` step
requires a positive weight (weight `0` divides by zero in the source) and a
non-panicking run; a `release` step is enabled when a guard is outstanding,
which under the lock discipline of the source is exactly `1 ≤ serving`. -/
inductive Step : SchedState → SchedState → Prop
  | acq (fid w : Nat) (res : AcquireResult) (s s' : SchedState)
      (hw : 1 ≤ w) (h : acquire fid w s = some (res, s')) : Step s s'
  | rel (fid c : Nat) (s : SchedState) (h : 1 ≤ s.serving) :
      Step s (release fid c s)

/-- States reachable from `SchedState.init cap d` by atomic operations. -/
inductive Reachable (cap d : Nat) : SchedState → Prop
  | init : Reachable cap d (SchedState.init cap d)
  | step {s s' : SchedState} : Reachable cap d s → Step s s' → Reachable cap d s'

/-- A concrete operation, used to exhibit reachable states by computation. -/
inductive Op where
  | acq (fid w : Nat)
  | rel (fid c : Nat)
deriving DecidableEq, Repr

def runOp (s : SchedState) : Op → Option SchedState
  | Op.acq fid w => if 1 ≤ w then (acquire fid w s).map (fun p => p.2) else none
  | Op.rel fid c => if 1 ≤ s.serving then some (release fid c s) else none

def run (s : SchedState) : List Op → Option SchedState
  | [] => some s
  | op :: ops =>
      match runOp s op with
      | none => none
      | some s' => run s' ops

/-! ### Basic lemmas about the embedded containers -/

theorem lookupFlow_setFlow_self (l : List (FlowId × Flow)) (fid : FlowId) (f : Flow) :
    lookupFlow (setFlow l fid f) fid = some f := by
  induction l with
  | nil => simp [setFlow, lookupFlow]
  | cons kv rest ih =>
    obtain ⟨k, v⟩ := kv
    by_cases hk : k = fid
    · simp [setFlow, lookupFlow, hk]
    · simp [setFlow, lookupFlow, hk, ih]

theorem insertBacklog_perm (k : VirtualTime) (r : Request)
    (l : List (VirtualTime × Request)) :
    (insertBacklog k r l).Perm ((k, r) :: l) := by
  induction l with
  | nil => simp [insertBacklog]
  | cons kv rest ih =>
    obtain ⟨k', r'⟩ := kv
    by_cases hk : k < k'
    · simp [insertBacklog, hk]
    · simp only [insertBacklog, hk, if_false]
      exact ((ih.cons (k', r')).trans (List.Perm.swap (k, r) (k', r') rest))

theorem mem_insertBacklog {e : VirtualTime × Request} (k : VirtualTime) (r : Request)
    (l : List (VirtualTime × Request)) :
    e ∈ insertBacklog k r l ↔ e = (k, r) ∨ e ∈ l := by
  rw [(insertBacklog_perm k r l).mem_iff]
  simp

theorem insertBacklog_sorted (k : VirtualTime) (r : Request)
    {l : List (VirtualTime × Request)}
    (hs : l.Pairwise (fun a b => a.1 ≤ b.1)) :
    (insertBacklog k r l).Pairwise (fun a b => a.1 ≤ b.1) := by
  induction l with
  | nil => simp [insertBacklog]
  | cons kv rest ih =>
    obtain ⟨k', r'⟩ := kv
    rw [List.pairwise_cons] at hs
    obtain ⟨hhead, hrest⟩ := hs
    by_cases hk : k < k'
    · simp only [insertBacklog, hk, if_true]
      refine List.Pairwise.cons ?_ (List.Pairwise.cons hhead hrest)
      intro b hb
      rcases List.mem_cons.mp hb with hb | hb
      · exact hb ▸ Nat.le_of_lt hk
      · exact Nat.le_trans (Nat.le_of_lt hk) (hhead b hb)
    · simp only [insertBacklog, hk, if_false]
      refine List.Pairwise.cons ?_ (ih hrest)
      intro b hb
      rcases (mem_insertBacklog k r rest).mp hb with hb | hb
      · exact hb ▸ Nat.le_of_not_lt hk
      · exact hhead b hb

theorem mem_of_getLast? {α : Type} {l : List α} {m : α}
    (h : l.getLast? = some m) : m ∈ l := by
  induction l with
  | nil => simp at h
  | cons a t ih =>
    cases t with
    | nil =>
      simp [List.getLast?] at h
      simp [h]
    | cons b t' =>
      rw [List.getLast?_cons_cons] at h
      exact List.mem_cons_of_mem a (ih h)

theorem getLast?_isMax {l : List (VirtualTime × Request)} {m : VirtualTime × Request}
    (hs : l.Pairwise (fun a b => a.1 ≤ b.1)) (h : l.getLast? = some m) :
    ∀ e ∈ l, e.1 ≤ m.1 := by
  induction l with
  | nil => simp at h
  | cons a t ih =>
    intro e he
    cases t with
    | nil =>
      simp [List.getLast?] at h
      rcases List.mem_singleton.mp he with rfl
      exact h ▸ Nat.le_refl _
    | cons b t' =>
      rw [List.getLast?_cons_cons] at h
      rw [List.pairwise_cons] at hs
      rcases List.mem_cons.mp he with rfl | he
      · exact hs.1 m (mem_of_getLast? h)
      · exact ih hs.2 h e he

/-! ### The inductive state invariant -/

/-- The invariant maintained by every lock-protected operation: the backlog
is sorted by key, every backlog key is at least the current virtual time and
equals its request's start tag, `serving` stays within `depth`, and a
non-empty backlog means the serving pool is full. -/
structure Inv (s : SchedState) : Prop where
  sorted : s.backlog.Pairwise (fun a b => a.1 ≤ b.1)
  lb : ∀ e ∈ s.backlog, s.virtual_time ≤ e.1
  keys : ∀ e ∈ s.backlog, e.2.start_tag = e.1
  cap : s.serving ≤ s.depth
  full : s.backlog ≠ [] → s.serving = s.depth

theorem inv_init (cap d : Nat) : Inv (SchedState.init cap d) := by
  refine ⟨?_, ?_, ?_, ?_, ?_⟩ <;> simp [SchedState.init]

theorem inv_setFlows {s : SchedState} (fl : List (FlowId × Flow)) (h : Inv s) :
    Inv { s with flows := fl } :=
  ⟨h.sorted, h.lb, h.keys, h.cap, h.full⟩

theorem inv_dropLast {s : SchedState} (h : Inv s) :
    Inv { s with backlog := s.backlog.dropLast } := by
  have hsub : s.backlog.dropLast.Sublist s.backlog := List.dropLast_sublist s.backlog
  refine ⟨h.sorted.sublist hsub, ?_, ?_, h.cap, ?_⟩
  · intro e he
    exact h.lb e (hsub.subset he)
  · intro e he
    exact h.keys e (hsub.subset he)
  · intro hne
    apply h.full
    intro hnil
    exact hne (by simp [hnil])

theorem inv_serveOrEnqueue {s : SchedState} (fid : FlowId) (t : VirtualTime)
    (hinv : Inv s) (ht : s.virtual_time ≤ t) :
    Inv (serveOrEnqueue s fid t).2 ∧
      s.virtual_time ≤ (serveOrEnqueue s fid t).2.virtual_time := by
  unfold serveOrEnqueue
  by_cases hd : s.serving < s.depth
  · have hnil : s.backlog = [] := by
      by_contra hne
      exact Nat.lt_irrefl s.depth (hinv.full hne ▸ hd)
    simp only [hd, if_true]
    refine ⟨⟨?_, ?_, ?_, hd, ?_⟩, ht⟩
    · simp [dispatch, hnil]
    · intro e he
      rw [show (dispatch s ⟨fid, t⟩).backlog = s.backlog from rfl, hnil] at he
      simp at he
    · intro e he
      rw [show (dispatch s ⟨fid, t⟩).backlog = s.backlog from rfl, hnil] at he
      simp at he
    · intro hne
      rw [show (dispatch s ⟨fid, t⟩).backlog = s.backlog from rfl, hnil] at hne
      simp at hne
  · have hserv : s.serving = s.depth := Nat.le_antisymm hinv.cap (Nat.le_of_not_lt hd)
    simp only [hd, if_false]
    refine ⟨⟨insertBacklog_sorted t ⟨fid, t⟩ hinv.sorted, ?_, ?_, hinv.cap, fun _ => hserv⟩,
      Nat.le_refl _⟩
    · intro e he
      rcases (mem_insertBacklog t ⟨fid, t⟩ s.backlog).mp he with rfl | he
      · exact ht
      · exact hinv.lb e he
    · intro e he
      rcases (mem_insertBacklog t ⟨fid, t⟩ s.backlog).mp he with rfl | he
      · rfl
      · exact hinv.keys e he

theorem inv_overloadCheck {s : SchedState} {fid : FlowId} {t : VirtualTime}
    {res : AcquireResult} {s' : SchedState}
    (hinv : Inv s) (ht : s.virtual_time ≤ t)
    (h : overloadCheck s fid t = some (res, s')) :
    Inv s' ∧ s.virtual_time ≤ s'.virtual_time := by
  unfold overloadCheck at h
  by_cases hfull : s.backlog_cap ≤ s.backlog.length
  · rw [if_pos hfull] at h
    split at h
    · exact absurd h (by simp)
    · split at h
      · rw [Option.some_inj, Prod.mk.injEq] at h
        obtain ⟨h1, h2⟩ := h
        subst h2
        exact ⟨hinv, Nat.le_refl _⟩
      · rw [Option.some_inj] at h
        have h2 : (serveOrEnqueue { s with backlog := s.backlog.dropLast } fid t).2 = s' :=
          congrArg Prod.snd h
        rw [← h2]
        exact inv_serveOrEnqueue fid t (inv_dropLast hinv) ht
  · rw [if_neg hfull, Option.some_inj] at h
    have h2 : (serveOrEnqueue s fid t).2 = s' := congrArg Prod.snd h
    rw [← h2]
    exact inv_serveOrEnqueue fid t hinv ht

theorem inv_acquire {s : SchedState} {fid w : Nat} {res : AcquireResult} {s' : SchedState}
    (hinv : Inv s) (h : acquire fid w s = some (res, s')) :
    Inv s' ∧ s.virtual_time ≤ s'.virtual_time := by
  unfold acquire at h
  exact @inv_overloadCheck
    { s with flows := setFlow s.flows fid ⟨finishTagOf s fid w, (flowOf s fid).cost_avg⟩ }
    fid (startTagOf s fid) res s' (inv_setFlows _ hinv) (Nat.le_max_left _ _) h

theorem inv_release {s : SchedState} (fid c : Nat)
    (hinv : Inv s) (hserv : 1 ≤ s.serving) :
    Inv (release fid c s) ∧ s.virtual_time ≤ (release fid c s).virtual_time := by
  unfold release tryPickupNext
  cases hb : s.backlog with
  | nil =>
    simp only [hb]
    refine ⟨⟨List.Pairwise.nil, ?_, ?_, ?_, ?_⟩, Nat.le_refl _⟩
    · intro e he
      simp at he
    · intro e he
      simp at he
    · show s.serving - 1 ≤ s.depth
      have := hinv.cap
      omega
    · intro hne
      simp at hne
  | cons e rest =>
    obtain ⟨k, r⟩ := e
    simp only [hb]
    have hsorted := hinv.sorted
    rw [hb, List.pairwise_cons] at hsorted
    have hkey : r.start_tag = k := hinv.keys (k, r) (by rw [hb]; exact List.mem_cons_self _ _)
    have hvt : s.virtual_time ≤ k := hinv.lb (k, r) (by rw [hb]; exact List.mem_cons_self _ _)
    have hfull : s.serving = s.depth := hinv.full (by rw [hb]; simp)
    refine ⟨⟨?_, ?_, ?_, ?_, ?_⟩, ?_⟩
    · exact hsorted.2
    · intro e2 he2
      show r.start_tag ≤ e2.1
      rw [hkey]
      exact hsorted.1 e2 he2
    · intro e2 he2
      exact hinv.keys e2 (by rw [hb]; exact List.mem_cons_of_mem _ he2)
    · show s.serving - 1 + 1 ≤ s.depth
      have := hinv.cap
      omega
    · intro _
      show s.serving - 1 + 1 = s.depth
      omega
    · show s.virtual_time ≤ r.start_tag
      rw [hkey]
      exact hvt

theorem inv_step {s s' : SchedState} (hinv : Inv s) (h : Step s s') :
    Inv s' ∧ s.virtual_time ≤ s'.virtual_time := by
  cases h with
  | acq fid w res s s' hw heq => exact inv_acquire hinv heq
  | rel fid c s hserv => exact inv_release fid c hinv hserv

theorem reachable_inv {cap d : Nat} {s : SchedState} (h : Reachable cap d s) : Inv s := by
  induction h with
  | init => exact inv_init cap d
  | step _ hstep ih => exact (inv_step ih hstep).1

theorem inv_steps {s s' : SchedState} (hinv : Inv s)
    (h : Relation.ReflTransGen Step s s') :
    Inv s' ∧ s.virtual_time ≤ s'.virtual_time := by
  induction h with
  | refl => exact ⟨hinv, Nat.le_refl _⟩
  | tail _ hstep ih =>
    obtain ⟨hi, hv⟩ := ih
    obtain ⟨hi2, hv2⟩ := inv_step hi hstep
    exact ⟨hi2, Nat.le_trans hv hv2⟩

/-! ### Running concrete traces -/

theorem step_of_runOp {s s' : SchedState} {op : Op} (h : runOp s op = some s') :
    Step s s' := by
  cases op with
  | acq fid w =>
    unfold runOp at h
    by_cases hw : 1 ≤ w
    · simp only [hw, if_true] at h
      rcases Option.map_eq_some'.mp h with ⟨⟨res, s''⟩, heq, hp⟩
      cases hp
      exact Step.acq fid w res s _ hw heq
    · simp [hw] at h
  | rel fid c =>
    unfold runOp at h
    by_cases hc : 1 ≤ s.serving
    · simp only [hc, if_true, Option.some_inj] at h
      exact h ▸ Step.rel fid c s hc
    · simp [hc] at h

theorem reachable_run {cap d : Nat} {s s' : SchedState} {ops : List Op}
    (hr : Reachable cap d s) (h : run s ops = some s') : Reachable cap d s' := by
  induction ops generalizing s with
  | nil =>
    unfold run at h
    rw [Option.some_inj] at h
    exact h ▸ hr
  | cons op ops ih =>
    unfold run at h
    cases hop : runOp s op with
    | none => rw [hop] at h; exact absurd h (by simp)
    | some s1 =>
      rw [hop] at h
      exact ih (Reachable.step hr (step_of_runOp hop)) h

/-! ### Frame lemmas -/

theorem serveOrEnqueue_flows (s : SchedState) (fid : FlowId) (t : VirtualTime) :
    (serveOrEnqueue s fid t).2.flows = s.flows := by
  unfold serveOrEnqueue
  split <;> rfl

theorem serveOrEnqueue_fst (s : SchedState) (fid : FlowId) (t : VirtualTime) :
    (serveOrEnqueue s fid t).1 ≠ AcquireResult.overloaded := by
  unfold serveOrEnqueue
  split <;> simp

theorem overloadCheck_flows {s : SchedState} {fid : FlowId} {t : VirtualTime}
    {res : AcquireResult} {s' : SchedState}
    (h : overloadCheck s fid t = some (res, s')) : s'.flows = s.flows := by
  unfold overloadCheck at h
  split at h
  · split at h
    · exact absurd h (by simp)
    · split at h
      · rw [Option.some_inj, Prod.mk.injEq] at h
        rw [← h.2]
      · rw [Option.some_inj] at h
        have h2 : (serveOrEnqueue { s with backlog := s.backlog.dropLast } fid t).2 = s' :=
          congrArg Prod.snd h
        rw [← h2]
        exact serveOrEnqueue_flows _ fid t
  · rw [Option.some_inj] at h
    have h2 : (serveOrEnqueue s fid t).2 = s' := congrArg Prod.snd h
    rw [← h2]
    exact serveOrEnqueue_flows s fid t

theorem acquire_flows {s : SchedState} {fid w : Nat} {res : AcquireResult} {s' : SchedState}
    (h : acquire fid w s = some (res, s')) :
    s'.flows = setFlow s.flows fid ⟨finishTagOf s fid w, (flowOf s fid).cost_avg⟩ := by
  unfold acquire at h
  exact overloadCheck_flows h

theorem tryPickupNext_flows (s : SchedState) : (tryPickupNext s).flows = s.flows := by
  unfold tryPickupNext
  split <;> rfl

/-! ### Concrete states used to instantiate the theorems

`wServeOne` is `new(10, 1)` after one acquire; `wOneQueued` after a second
acquire from a fresh flow (queued at tag 0); `wTwoQueued` after a third
(queued at the colliding tag 0).  `uOneQueued`/`uOverloaded` are the
`backlog_cap = 1` variants before and after a rejected acquire. -/

def wServeOne : SchedState :=
  { flows := [(0, ⟨1, 0⟩)], backlog := [], backlog_cap := 10, depth := 1,
    serving := 1, virtual_time := 0 }

def wOneQueued : SchedState :=
  { flows := [(0, ⟨1, 0⟩), (1, ⟨1, 0⟩)], backlog := [(0, ⟨1, 0⟩)],
    backlog_cap := 10, depth := 1, serving := 1, virtual_time := 0 }

def wTwoQueued : SchedState :=
  { flows := [(0, ⟨1, 0⟩), (1, ⟨1, 0⟩), (2, ⟨1, 0⟩)],
    backlog := [(0, ⟨1, 0⟩), (0, ⟨2, 0⟩)],
    backlog_cap := 10, depth := 1, serving := 1, virtual_time := 0 }

def uOneQueued : SchedState :=
  { flows := [(0, ⟨1, 0⟩), (1, ⟨1, 0⟩)], backlog := [(0, ⟨1, 0⟩)],
    backlog_cap := 1, depth := 1, serving := 1, virtual_time := 0 }

def uOverloaded : SchedState :=
  { flows := [(0, ⟨1, 0⟩), (1, ⟨1, 0⟩), (2, ⟨1, 0⟩)], backlog := [(0, ⟨1, 0⟩)],
    backlog_cap := 1, depth := 1, serving := 1, virtual_time := 0 }

/-! ### The claims -/

/-- Claim C1: every completed `acquire(flow_id, weight)` with `weight ≥ 1`
computes `start_tag = max(virtual_time, flow.previous_finish_tag)`,
`cost = flow.cost_avg / weight`, `finish_tag = start_tag + max(cost, 1)`,
and stores `finish_tag` as the flow's new `previous_finish_tag`, creating the
entry with `previous_finish_tag = 0` and `cost_avg = 0` if it was absent. -/
theorem acquire_tag_assignment (s : SchedState) (fid w : Nat) (res : AcquireResult)
    (s' : SchedState) (_hw : 1 ≤ w) (h : acquire fid w s = some (res, s')) :
    lookupFlow s'.flows fid =
      some ⟨max s.virtual_time ((lookupFlow s.flows fid).getD ⟨0, 0⟩).previous_finish_tag +
              max (((lookupFlow s.flows fid).getD ⟨0, 0⟩).cost_avg / w) 1,
            ((lookupFlow s.flows fid).getD ⟨0, 0⟩).cost_avg⟩ := by
  rw [acquire_flows h, lookupFlow_setFlow_self]
  rfl

theorem acquire_tag_assignment_witness :
    lookupFlow wServeOne.flows 0 =
      some ⟨max (SchedState.init 10 1).virtual_time
              ((lookupFlow (SchedState.init 10 1).flows 0).getD ⟨0, 0⟩).previous_finish_tag +
              max (((lookupFlow (SchedState.init 10 1).flows 0).getD ⟨0, 0⟩).cost_avg / 1) 1,
            ((lookupFlow (SchedState.init 10 1).flows 0).getD ⟨0, 0⟩).cost_avg⟩ :=
  acquire_tag_assignment (SchedState.init 10 1) 0 1 AcquireResult.dispatched wServeOne
    (by decide) (by decide)

/-- Claim C7: an `acquire` rejected with `Overloaded` has still advanced the
flow's `previous_finish_tag` to the freshly computed finish tag, while
`serving`, `virtual_time` and the backlog are unchanged. -/
theorem acquire_overloaded_frame (s : SchedState) (fid w : Nat) (s' : SchedState)
    (_hw : 1 ≤ w) (h : acquire fid w s = some (AcquireResult.overloaded, s')) :
    lookupFlow s'.flows fid = some ⟨finishTagOf s fid w, (flowOf s fid).cost_avg⟩ ∧
      s'.serving = s.serving ∧ s'.virtual_time = s.virtual_time ∧
      s'.backlog = s.backlog := by
  unfold acquire overloadCheck at h
  split at h
  · split at h
    · exact absurd h (by simp)
    · split at h
      · rw [Option.some_inj, Prod.mk.injEq] at h
        obtain ⟨h1, h2⟩ := h
        subst h2
        exact ⟨lookupFlow_setFlow_self _ _ _, rfl, rfl, rfl⟩
      · rw [Option.some_inj] at h
        have h1 :
            (serveOrEnqueue
              { s with
                flows := setFlow s.flows fid ⟨finishTagOf s fid w, (flowOf s fid).cost_avg⟩,
                backlog := s.backlog.dropLast } fid (startTagOf s fid)).1 =
              AcquireResult.overloaded := congrArg Prod.fst h
        exact absurd h1 (serveOrEnqueue_fst _ fid _)
  · rw [Option.some_inj] at h
    have h1 :
        (serveOrEnqueue
          { s with
            flows := setFlow s.flows fid ⟨finishTagOf s fid w, (flowOf s fid).cost_avg⟩ }
          fid (startTagOf s fid)).1 = AcquireResult.overloaded := congrArg Prod.fst h
    exact absurd h1 (serveOrEnqueue_fst _ fid _)

theorem acquire_overloaded_frame_witness :
    lookupFlow uOverloaded.flows 2 =
        some ⟨finishTagOf uOneQueued 2 1, (flowOf uOneQueued 2).cost_avg⟩ ∧
      uOverloaded.serving = uOneQueued.serving ∧
      uOverloaded.virtual_time = uOneQueued.virtual_time ∧
      uOverloaded.backlog = uOneQueued.backlog :=
  acquire_overloaded_frame uOneQueued 2 1 uOverloaded (by decide) (by decide)

/-- Claim C8: with `backlog_cap = 0` the source does not return `Overloaded`
for a request that cannot be served immediately: the overload branch is
entered with an empty backlog and `backlog.get_last().expect(..)` panics
(modelled as `none`), for every flow id and every weight. -/
theorem acquire_cap0_aborts (s : SchedState) (fid w : Nat) (_hw : 1 ≤ w)
    (hcap : s.backlog_cap = 0) (hb : s.backlog = []) :
    acquire fid w s = none := by
  simp [acquire, overloadCheck, hcap, hb]

theorem acquire_cap0_aborts_witness :
    acquire 0 1 (SchedState.init 0 0) = none :=
  acquire_cap0_aborts (SchedState.init 0 0) 0 1 (by decide) (by decide) (by decide)

/-- Claim C5: in every reachable scheduler state, `serving` never exceeds
`depth` (`0 ≤ serving` holds by the `Nat` embedding of the `u32` counter). -/
theorem serving_le_depth (cap d : Nat) (s : SchedState) (hr : Reachable cap d s) :
    s.serving ≤ s.depth :=
  (reachable_inv hr).cap

theorem serving_le_depth_witness : wTwoQueued.serving ≤ wTwoQueued.depth := by
  have hrun : run (SchedState.init 10 1) [Op.acq 0 1, Op.acq 1 1, Op.acq 2 1] =
      some wTwoQueued := by decide
  exact serving_le_depth 10 1 wTwoQueued (reachable_run Reachable.init hrun)

/-- Claim C10: in every reachable scheduler state, a non-empty backlog means
the serving pool is full (`serving = depth`): `acquire` only enqueues when no
slot is free, and `release` refills the freed slot from the backlog within
the same atomic step. -/
theorem backlog_nonempty_full (cap d : Nat) (s : SchedState)
    (hr : Reachable cap d s) (hne : s.backlog ≠ []) : s.serving = s.depth :=
  (reachable_inv hr).full hne

theorem backlog_nonempty_full_witness : wOneQueued.serving = wOneQueued.depth := by
  have hrun : run (SchedState.init 10 1) [Op.acq 0 1, Op.acq 1 1] =
      some wOneQueued := by decide
  exact backlog_nonempty_full 10 1 wOneQueued (reachable_run Reachable.init hrun) (by decide)

/-- Claim C3: the virtual clock is monotone: along any sequence of operations
from a reachable state the virtual time never decreases, and every dispatch
sets it to the dispatched request's start tag. -/
theorem virtual_time_monotone (cap d : Nat) (s s' : SchedState)
    (hr : Reachable cap d s) (hsteps : Relation.ReflTransGen Step s s') :
    s.virtual_time ≤ s'.virtual_time ∧
      ∀ (t : SchedState) (r : Request), (dispatch t r).virtual_time = r.start_tag :=
  ⟨(inv_steps (reachable_inv hr) hsteps).2, fun _ _ => rfl⟩

theorem virtual_time_monotone_witness :
    wTwoQueued.virtual_time ≤ (release 9 9 wTwoQueued).virtual_time ∧
      ∀ (t : SchedState) (r : Request), (dispatch t r).virtual_time = r.start_tag := by
  have hrun : run (SchedState.init 10 1) [Op.acq 0 1, Op.acq 1 1, Op.acq 2 1] =
      some wTwoQueued := by decide
  exact virtual_time_monotone 10 1 wTwoQueued (release 9 9 wTwoQueued)
    (reachable_run Reachable.init hrun)
    (Relation.ReflTransGen.single (Step.rel 9 9 wTwoQueued (by decide)))

theorem serveOrEnqueue_cases (s : SchedState) (fid : FlowId) (t : VirtualTime) :
    ((serveOrEnqueue s fid t).1 = AcquireResult.dispatched ∧
      (serveOrEnqueue s fid t).2.backlog = s.backlog) ∨
    ((serveOrEnqueue s fid t).1 = AcquireResult.queued ∧
      (serveOrEnqueue s fid t).2.backlog = insertBacklog t ⟨fid, t⟩ s.backlog) := by
  unfold serveOrEnqueue
  split
  · exact Or.inl ⟨rfl, rfl⟩
  · exact Or.inr ⟨rfl, rfl⟩

theorem overloadCheck_policy (s : SchedState) (fid : FlowId) (t : VirtualTime)
    (maxe : VirtualTime × Request) (hfull : s.backlog_cap ≤ s.backlog.length)
    (hlast : s.backlog.getLast? = some maxe) :
    ∃ res s', overloadCheck s fid t = some (res, s') ∧
      (res = AcquireResult.overloaded ↔ maxe.1 ≤ t) ∧
      (t < maxe.1 →
        (res = AcquireResult.dispatched ∧ s'.backlog = s.backlog.dropLast) ∨
        (res = AcquireResult.queued ∧
          s'.backlog = insertBacklog t ⟨fid, t⟩ s.backlog.dropLast)) := by
  unfold overloadCheck
  rw [if_pos hfull]
  simp only [hlast]
  by_cases hge : maxe.1 ≤ t
  · rw [if_pos hge]
    refine ⟨AcquireResult.overloaded, s, rfl, by simp [hge], ?_⟩
    intro hlt
    exact absurd hge (not_le_of_lt hlt)
  · rw [if_neg hge]
    refine ⟨(serveOrEnqueue { s with backlog := s.backlog.dropLast } fid t).1,
      (serveOrEnqueue { s with backlog := s.backlog.dropLast } fid t).2, rfl, ?_, ?_⟩
    · constructor
      · intro hres
        exact absurd hres (serveOrEnqueue_fst _ fid t)
      · intro hle
        exact absurd hle hge
    · intro hlt
      rcases serveOrEnqueue_cases { s with backlog := s.backlog.dropLast } fid t with
        ⟨ha, hb⟩ | ⟨ha, hb⟩
      · exact Or.inl ⟨ha, hb⟩
      · exact Or.inr ⟨ha, hb⟩

/-- Claim C2: when `acquire` finds the backlog already at a capacity
`backlog_cap ≥ 1`, it returns `Overloaded` exactly when the new request's
start tag is at least the maximum start tag in the backlog; otherwise the
maximum-tag entry (the last entry of the key-sorted backlog) is evicted and
the new request is admitted, dispatched or enqueued. -/
theorem acquire_overload_policy (cap d : Nat) (s : SchedState) (fid w : Nat)
    (maxe : VirtualTime × Request) (hr : Reachable cap d s) (_hw : 1 ≤ w)
    (_hcap : 1 ≤ s.backlog_cap) (hfull : s.backlog_cap ≤ s.backlog.length)
    (hlast : s.backlog.getLast? = some maxe) :
    (∀ e ∈ s.backlog, e.1 ≤ maxe.1) ∧
    ∃ res s', acquire fid w s = some (res, s') ∧
      (res = AcquireResult.overloaded ↔ maxe.1 ≤ startTagOf s fid) ∧
      (startTagOf s fid < maxe.1 →
        (res = AcquireResult.dispatched ∧ s'.backlog = s.backlog.dropLast) ∨
        (res = AcquireResult.queued ∧
          s'.backlog = insertBacklog (startTagOf s fid) ⟨fid, startTagOf s fid⟩
            s.backlog.dropLast)) := by
  refine ⟨getLast?_isMax (reachable_inv hr).sorted hlast, ?_⟩
  exact overloadCheck_policy
    { s with flows := setFlow s.flows fid ⟨finishTagOf s fid w, (flowOf s fid).cost_avg⟩ }
    fid (startTagOf s fid) maxe hfull hlast

theorem acquire_overload_policy_witness :
    (∀ e ∈ uOneQueued.backlog, e.1 ≤ (((0 : VirtualTime), (⟨1, 0⟩ : Request))).1) ∧
    ∃ res s', acquire 2 1 uOneQueued = some (res, s') ∧
      (res = AcquireResult.overloaded ↔
        ((0 : VirtualTime), (⟨1, 0⟩ : Request)).1 ≤ startTagOf uOneQueued 2) ∧
      (startTagOf uOneQueued 2 < ((0 : VirtualTime), (⟨1, 0⟩ : Request)).1 →
        (res = AcquireResult.dispatched ∧ s'.backlog = uOneQueued.backlog.dropLast) ∨
        (res = AcquireResult.queued ∧
          s'.backlog = insertBacklog (startTagOf uOneQueued 2) ⟨2, startTagOf uOneQueued 2⟩
            uOneQueued.backlog.dropLast)) := by
  have hrun : run (SchedState.init 1 1) [Op.acq 0 1, Op.acq 1 1] = some uOneQueued := by
    decide
  exact acquire_overload_policy 1 1 uOneQueued 2 1 (0, ⟨1, 0⟩)
    (reachable_run Reachable.init hrun) (by decide) (by decide) (by decide) (by decide)

theorem mem_of_head? {α : Type} {l : List α} {a : α} (h : l.head? = some a) : a ∈ l := by
  cases l with
  | nil => simp at h
  | cons b t =>
    rw [List.head?_cons, Option.some_inj] at h
    subst h
    exact List.mem_cons_self _ _

/-- Claim C4: backlog entries are dispatched in non-decreasing start-tag
order: the entry picked up by a `release` is a minimum-tag entry of the
backlog, and any entry a later pickup would dispatch carries a start tag at
least as large. -/
theorem backlog_dispatch_order (cap d : Nat) (s1 s2 : SchedState) (fid c : Nat)
    (e1 e2 : VirtualTime × Request)
    (h1 : Reachable cap d s1) (hserv : 1 ≤ s1.serving)
    (hb1 : s1.backlog.head? = some e1)
    (h12 : Relation.ReflTransGen Step (release fid c s1) s2)
    (hb2 : s2.backlog.head? = some e2) :
    (∀ e ∈ s1.backlog, e1.1 ≤ e.1) ∧ e1.1 ≤ e2.1 := by
  obtain ⟨k1, r1⟩ := e1
  have hinv1 := reachable_inv h1
  obtain ⟨l, hl⟩ : ∃ l, s1.backlog = (k1, r1) :: l := by
    cases hbl : s1.backlog with
    | nil => rw [hbl] at hb1; simp at hb1
    | cons a t =>
      rw [hbl, List.head?_cons, Option.some_inj] at hb1
      exact ⟨t, by rw [hb1]⟩
  have hmin : ∀ e ∈ s1.backlog, k1 ≤ e.1 := by
    intro e he
    rw [hl] at he
    rcases List.mem_cons.mp he with rfl | he
    · exact Nat.le_refl _
    · have hs := hinv1.sorted
      rw [hl, List.pairwise_cons] at hs
      exact hs.1 e he
  have hkey : r1.start_tag = k1 :=
    hinv1.keys (k1, r1) (by rw [hl]; exact List.mem_cons_self _ _)
  have hvt : (release fid c s1).virtual_time = k1 := by
    unfold release tryPickupNext
    simp only [hl]
    exact hkey
  have hrel : Reachable cap d (release fid c s1) :=
    Reachable.step h1 (Step.rel fid c s1 hserv)
  obtain ⟨hinv2, hmono⟩ := inv_steps (reachable_inv hrel) h12
  have hle2 : s2.virtual_time ≤ e2.1 := hinv2.lb e2 (mem_of_head? hb2)
  refine ⟨hmin, ?_⟩
  calc (k1, r1).1 = (release fid c s1).virtual_time := hvt.symm
    _ ≤ s2.virtual_time := hmono
    _ ≤ e2.1 := hle2

theorem backlog_dispatch_order_witness :
    (∀ e ∈ wTwoQueued.backlog, (((0 : VirtualTime), (⟨1, 0⟩ : Request))).1 ≤ e.1) ∧
      (((0 : VirtualTime), (⟨1, 0⟩ : Request))).1 ≤
        (((0 : VirtualTime), (⟨2, 0⟩ : Request))).1 := by
  have hrun : run (SchedState.init 10 1) [Op.acq 0 1, Op.acq 1 1, Op.acq 2 1] =
      some wTwoQueued := by decide
  exact backlog_dispatch_order 10 1 wTwoQueued (release 9 9 wTwoQueued) 9 9
    (0, ⟨1, 0⟩) (0, ⟨2, 0⟩)
    (reachable_run Reachable.init hrun) (by decide) (by decide)
    Relation.ReflTransGen.refl (by decide)

/-- Claim C6: a call `release(flow_id, actual_cost)` updates an existing flow's
estimate to `(cost_avg * 4 + actual_cost) / 5` (leaving `previous_finish_tag`
alone), silently skips the update when the entry is absent, decrements
`serving`, and then dispatches the minimum-tag backlog entry, if any. -/
theorem release_spec (cap d : Nat) (s : SchedState) (fid c : Nat)
    (hr : Reachable cap d s) (hserv : 1 ≤ s.serving) :
    (∀ f, lookupFlow s.flows fid = some f →
        lookupFlow (release fid c s).flows fid =
          some ⟨f.previous_finish_tag, (f.cost_avg * 4 + c) / 5⟩) ∧
    (lookupFlow s.flows fid = none → (release fid c s).flows = s.flows) ∧
    (s.backlog = [] →
      (release fid c s).serving + 1 = s.serving ∧ (release fid c s).backlog = []) ∧
    (∀ k r rest, s.backlog = (k, r) :: rest →
      (∀ e ∈ s.backlog, k ≤ e.1) ∧
      (release fid c s).serving = s.serving ∧
      (release fid c s).backlog = rest ∧
      (release fid c s).virtual_time = r.start_tag) := by
  have hfl : (release fid c s).flows =
      match lookupFlow s.flows fid with
      | some f => setFlow s.flows fid ⟨f.previous_finish_tag, (f.cost_avg * 4 + c) / 5⟩
      | none => s.flows := tryPickupNext_flows _
  refine ⟨?_, ?_, ?_, ?_⟩
  · intro f hf
    rw [hfl, hf]
    exact lookupFlow_setFlow_self _ _ _
  · intro hf
    rw [hfl, hf]
  · intro hb
    unfold release tryPickupNext
    simp only [hb]
    constructor
    · show s.serving - 1 + 1 = s.serving
      omega
    · trivial
  · intro k r rest hb
    refine ⟨?_, ?_, ?_, ?_⟩
    · intro e he
      rw [hb] at he
      rcases List.mem_cons.mp he with rfl | he
      · exact Nat.le_refl _
      · have hs := (reachable_inv hr).sorted
        rw [hb, List.pairwise_cons] at hs
        exact hs.1 e he
    · unfold release tryPickupNext
      simp only [hb]
      show s.serving - 1 + 1 = s.serving
      omega
    · unfold release tryPickupNext
      simp only [hb]
      rfl
    · unfold release tryPickupNext
      simp only [hb]
      rfl

theorem release_spec_witness :
    (∀ f, lookupFlow wOneQueued.flows 0 = some f →
        lookupFlow (release 0 3 wOneQueued).flows 0 =
          some ⟨f.previous_finish_tag, (f.cost_avg * 4 + 3) / 5⟩) ∧
    (lookupFlow wOneQueued.flows 0 = none →
      (release 0 3 wOneQueued).flows = wOneQueued.flows) ∧
    (wOneQueued.backlog = [] →
      (release 0 3 wOneQueued).serving + 1 = wOneQueued.serving ∧
      (release 0 3 wOneQueued).backlog = []) ∧
    (∀ k r rest, wOneQueued.backlog = (k, r) :: rest →
      (∀ e ∈ wOneQueued.backlog, k ≤ e.1) ∧
      (release 0 3 wOneQueued).serving = wOneQueued.serving ∧
      (release 0 3 wOneQueued).backlog = rest ∧
      (release 0 3 wOneQueued).virtual_time = r.start_tag) := by
  have hrun : run (SchedState.init 10 1) [Op.acq 0 1, Op.acq 1 1] =
      some wOneQueued := by decide
  exact release_spec 10 1 wOneQueued 0 3 (reachable_run Reachable.init hrun) (by decide)

/-- Claim C9, counterexample: the backlog keys of a reachable state need not
be pairwise distinct — three flows acquiring from a fresh queue of depth 1
leave two backlog entries both keyed by start tag 0, because the RB-tree
insert keeps equal keys. -/
theorem backlog_duplicate_tags_cex :
    Reachable 10 1 wTwoQueued ∧ ¬ (wTwoQueued.backlog.map Prod.fst).Nodup := by
  constructor
  · have hrun : run (SchedState.init 10 1) [Op.acq 0 1, Op.acq 1 1, Op.acq 2 1] =
        some wTwoQueued := by decide
    exact reachable_run Reachable.init hrun
  · decide

/-- Claim C9, amended: the backlog may hold entries with equal start-tag
keys, but no waiter is lost on a collision: an `acquire` that enqueues leaves
the backlog a permutation of the new request consed onto the previous
backlog (with the evicted maximum-tag entry removed when the backlog was at
capacity). -/
theorem backlog_no_lost_waiters (s : SchedState) (fid w : Nat) (s' : SchedState)
    (_hw : 1 ≤ w) (h : acquire fid w s = some (AcquireResult.queued, s')) :
    s'.backlog.Perm ((startTagOf s fid, ⟨fid, startTagOf s fid⟩) :: s.backlog) ∨
    s'.backlog.Perm ((startTagOf s fid, ⟨fid, startTagOf s fid⟩) :: s.backlog.dropLast) := by
  unfold acquire overloadCheck at h
  split at h
  · split at h
    · exact absurd h (by simp)
    · split at h
      · rw [Option.some_inj, Prod.mk.injEq] at h
        exact absurd h.1 (by simp)
      · rw [Option.some_inj] at h
        unfold serveOrEnqueue at h
        split at h
        · rw [Prod.mk.injEq] at h
          exact absurd h.1 (by simp)
        · rw [Prod.mk.injEq] at h
          obtain ⟨_, h2⟩ := h
          right
          rw [← h2]
          exact insertBacklog_perm _ _ _
  · rw [Option.some_inj] at h
    unfold serveOrEnqueue at h
    split at h
    · rw [Prod.mk.injEq] at h
      exact absurd h.1 (by simp)
    · rw [Prod.mk.injEq] at h
      obtain ⟨_, h2⟩ := h
      left
      rw [← h2]
      exact insertBacklog_perm _ _ _

theorem backlog_no_lost_waiters_witness :
    wTwoQueued.backlog.Perm
        ((startTagOf wOneQueued 2, ⟨2, startTagOf wOneQueued 2⟩) :: wOneQueued.backlog) ∨
    wTwoQueued.backlog.Perm
        ((startTagOf wOneQueued 2, ⟨2, startTagOf wOneQueued 2⟩) ::
          wOneQueued.backlog.dropLast) :=
  backlog_no_lost_waiters wOneQueued 2 1 wTwoQueued (by decide) (by decide)

example : startTagOf (SchedState.init 5 2) 0 = 0 := rfl

example :
    acquire 0 1 (SchedState.init 5 2) =
      some (AcquireResult.dispatched,
        { flows := [(0, ⟨1, 0⟩)], backlog := [], backlog_cap := 5, depth := 2,
          serving := 1, virtual_time := 0 }) := rfl

end FairQueue
